import Mathlib

/-!
Verification of the failure-mode-analysis pipeline
(`scripts/failure_mode_analysis/`): node analysis prompt assembly
(`analyze_llm_nodes.py`), feedback collection and batch classification
(`classify_feedbacks.py`), and taxonomy merging (`merge_taxonomies.py`).

The Python sources are shallowly embedded: JSON payloads become the `JVal`
inductive, dictionaries become association lists, file loads and network
calls become explicit `Except` values / oracles, and every function is a
computable Lean `def` translated from the corresponding Python function.
-/

namespace FMA

/-- A JSON value, as produced by `json.loads`.  JSON numbers are modelled as
integers (no claim involves fractional numerics). -/
inductive JVal where
  | jnull
  | jbool (b : Bool)
  | jnum (n : Int)
  | jstr (s : String)
  | jarr (xs : List JVal)
  | jobj (fields : List (String × JVal))

/-- Lookup of a key in a JSON object's field list (Python `d[k]` / `d.get(k)`;
`json.loads` objects have unique keys, so first-match lookup is faithful). -/
def jLookup (fields : List (String × JVal)) (k : String) : Option JVal :=
  (fields.find? (fun kv => kv.1 == k)).map (fun kv => kv.2)

/-- Python `k in d` for a JSON object. -/
def jHasKey (fields : List (String × JVal)) (k : String) : Bool :=
  (jLookup fields k).isSome

/-- Whether a JSON value is an object (Python `isinstance(entry, dict)`). -/
def isObj : JVal → Bool
  | .jobj _ => true
  | _ => false

mutual

/-- Python `repr()` of a parsed-JSON value (used inside containers by `str()`). -/
def pyRepr : JVal → String
  | .jnull => "None"
  | .jbool true => "True"
  | .jbool false => "False"
  | .jnum n => toString n
  | .jstr s => "\x27" ++ s ++ "\x27"
  | .jarr xs => "[" ++ pyReprItems xs ++ "]"
  | .jobj fs => "\x7b" ++ pyReprFields fs ++ "\x7d"

/-- Comma-separated `repr` of list elements. -/
def pyReprItems : List JVal → String
  | [] => ""
  | [x] => pyRepr x
  | x :: y :: rest => pyRepr x ++ ", " ++ pyReprItems (y :: rest)

/-- Comma-separated `repr` of object fields. -/
def pyReprFields : List (String × JVal) → String
  | [] => ""
  | [kv] => "\x27" ++ kv.1 ++ "\x27: " ++ pyRepr kv.2
  | kv :: kw :: rest => "\x27" ++ kv.1 ++ "\x27: " ++ pyRepr kv.2 ++ ", " ++ pyReprFields (kw :: rest)

end

/-- Python `str()` of a parsed-JSON value: the string itself for strings,
`repr`-like rendering otherwise. -/
def pyStr : JVal → String
  | .jstr s => s
  | v => pyRepr v

/-- Python `str.lower()` (ASCII case folding suffices for the embedded data). -/
def pyLower (s : String) : String :=
  ⟨s.data.map Char.toLower⟩

/-- Python `str.strip()`: remove leading and trailing whitespace. -/
def pyStrip (s : String) : String :=
  ⟨((s.data.dropWhile Char.isWhitespace).reverse.dropWhile Char.isWhitespace).reverse⟩

/-- Python string comparison `a < b`: lexicographic on code points. -/
def strLT (a b : String) : Prop := a.data < b.data

/-- Python string comparison `a <= b`: lexicographic on code points. -/
def strLE (a b : String) : Prop := a.data ≤ b.data

instance : DecidableRel strLT := fun a b => inferInstanceAs (Decidable (a.data < b.data))

instance : DecidableRel strLE := fun a b => inferInstanceAs (Decidable (a.data ≤ b.data))

instance : IsTotal String strLE := ⟨fun a b => le_total a.data b.data⟩

instance : IsTrans String strLE := ⟨fun _ _ _ h h' => le_trans h h'⟩

/-! ## `analyze_llm_nodes.py` -/

/-- One node record from the input tree's `nodes` array.  Each textual field
is `none` when the key is absent or JSON `null` (Python `node.get(k)` giving
`None`), `some s` when it holds the string `s`. -/
structure Node where
  id : Option String
  parent : Option String
  plan : Option String
  code : Option String
  analysis : Option String
deriving DecidableEq

/-- Lookup in the identifier-to-node mapping (`id_to_node[parent_id]`). -/
def lookupNode (m : List (String × Node)) (k : String) : Option Node :=
  (m.find? (fun kv => kv.1 == k)).map (fun kv => kv.2)

/-- The sentinel used for a missing/blank parent analysis. -/
def noParentSentinel : String := "No parent node"

/-- The `parent_analysis` value computed by `analyze_single_node`
(lines 82–89): `parent_id = node.get("parent")`; when `parent_id` is truthy
(non-`None`, non-empty) and a key of `id_to_node`, take that node's
`analysis` (`.get("analysis", "") or ""`), replacing it by the sentinel when
blank after stripping; otherwise the sentinel. -/
def parentAnalysisSlot (node : Node) (m : List (String × Node)) : String :=
  match node.parent with
  | none => noParentSentinel
  | some pid =>
    if pid = "" then noParentSentinel
    else
      match lookupNode m pid with
      | none => noParentSentinel
      | some p =>
        let pa := p.analysis.getD ""
        if pyStrip pa = "" then noParentSentinel else pa

/-- `build_user_prompt` (lines 62–73): the user prompt with the plan, code and
run-analysis texts inside named delimiting sections. -/
def build_user_prompt (plan code run_analysis : String) : String :=
  "<plan>\n" ++ plan ++ "\n" ++ "</plan>\n\n" ++
  "<code>\n" ++ code ++ "\n" ++ "</code>\n\n" ++
  "<run_analysis>\n" ++ run_analysis ++ "\n" ++ "</run_analysis>\n"

/-- The `user_prompt` that `analyze_single_node` sends for a node: it computes
`parent_analysis` (lines 82–89) and then calls
`build_user_prompt(plan=plan, code=code, run_analysis=run_analysis)` with the
node's own three texts (lines 91–95); `parent_analysis` is not an argument. -/
def userPromptFor (node : Node) (m : List (String × Node)) : String :=
  let _parent_analysis := parentAnalysisSlot node m
  build_user_prompt (node.plan.getD "") (node.code.getD "") (node.analysis.getD "")

/-- `random.sample(population, k)` modelled by its contract: the library picks
`k` distinct positions of the population (the `idxs` oracle) and returns the
elements at those positions, in selection order. -/
def sample (population : List α) (idxs : List Nat) : List α :=
  idxs.filterMap (fun i => population[i]?)

/-- The node-selection step of `main_async` (lines 176–180): when
`max_nodes > 0` and the tree has more than `max_nodes` nodes, analyze
`random.sample(all_nodes, k=max_nodes)`; otherwise analyze every node. -/
def selectNodes (all_nodes : List Node) (max_nodes : Int) (idxs : List Nat) : List Node :=
  if 0 < max_nodes ∧ max_nodes < (all_nodes.length : Int) then
    sample all_nodes idxs
  else
    all_nodes

/-! ## `classify_feedbacks.py` -/

/-- `chunks` (lines 333–334): `[seq[i:i + size] for i in range(0, len(seq), size)]`.
`pyRangeTo stop step i` enumerates `range(i, stop, step)` for `step ≥ 1`. -/
def pyRangeTo (stop step : Nat) (i : Nat) : List Nat :=
  if _h : i < stop ∧ 0 < step then i :: pyRangeTo stop step (i + step) else []
termination_by stop - i
decreasing_by omega

/-- Python slice `seq[i:i+size]`. -/
def pySlice (seq : List α) (i size : Nat) : List α :=
  (seq.drop i).take size

/-- `chunks(seq, size)` itself. -/
def chunks (seq : List α) (size : Nat) : List (List α) :=
  (pyRangeTo seq.length size 0).map (fun i => pySlice seq i size)

/-- One collected feedback: `(node_id, feedback_text)`. -/
abbrev Feedback := String × String

/-- A discovered candidate: a node directory name together with the read
outcome of its `output.txt` (`Except.error` models an unreadable file). -/
abbrev Candidate := String × Except Unit String

/-- One immediate subdirectory of the feedback root: its name, whether it
itself holds an `output.txt` (and that file's read outcome), and its own
subdirectories with their optional `output.txt` (the one-level-deeper
fallback layer scanned by `collect_feedbacks`). -/
structure RootEntry where
  name : String
  nodeOut : Option (Except Unit String)
  children : List (String × Option (Except Unit String))

/-- `gather_candidates_at` applied to the feedback root: the immediate
subdirectories that contain an `output.txt` file. -/
def gatherAtRoot (root : List RootEntry) : List Candidate :=
  root.filterMap (fun e => e.nodeOut.map (fun r => (e.name, r)))

/-- The fallback scan one level deeper: for each immediate subdirectory,
its subdirectories that contain an `output.txt` file, flattened. -/
def gatherNested (root : List RootEntry) : List Candidate :=
  root.foldl
    (fun acc p => acc ++ p.children.filterMap (fun c => c.2.map (fun r => (c.1, r)))) []

/-- The candidate set `collect_feedbacks` discovers: immediate children
first; only when none exist, the one-level-deeper fallback. -/
def discoveredCandidates (root : List RootEntry) : List Candidate :=
  let primary := gatherAtRoot root
  if primary.isEmpty then gatherNested root else primary

/-- The sort order of line 68: by node identifier. -/
def candLE (a b : Candidate) : Prop := strLE a.1 b.1

instance : DecidableRel candLE := fun a b => inferInstanceAs (Decidable (strLE a.1 b.1))

instance : IsTotal Candidate candLE := ⟨fun a b => le_total a.1.data b.1.data⟩

instance : IsTrans Candidate candLE := ⟨fun _ _ _ h h' => le_trans h h'⟩

/-- The per-candidate read step of the collection loop (lines 70–79): an
unreadable `output.txt` is skipped, a readable one is stripped and kept only
when the text is non-empty. -/
def readCandidate (c : Candidate) : Option Feedback :=
  match c.2 with
  | .error _ => none
  | .ok txt =>
    let feedback_text := pyStrip txt
    if feedback_text = "" then none else some (c.1, feedback_text)

/-- `collect_feedbacks` (lines 31–93): discover candidates, sort them by
node identifier (`candidates.sort(key=lambda t: t[0])` — a stable sort,
modelled by insertion sort, which is also stable), read each `output.txt`
(skipping unreadable files), strip the text and keep it only when
non-empty; raise `RuntimeError` when nothing was collected. -/
def collect_feedbacks (root : List RootEntry) : Except Unit (List Feedback) :=
  let cands := List.insertionSort candLE (discoveredCandidates root)
  let collected := cands.filterMap readCandidate
  if collected.isEmpty then .error () else .ok collected

/-- Python iteration over a value, as `list.extend` would consume it:
a list yields its elements, a string its characters, a dict its keys;
`None`, numbers and booleans are not iterable (a `TypeError`). -/
def pyIterate : JVal → Option (List JVal)
  | .jarr xs => some xs
  | .jstr s => some (s.data.map (fun c => JVal.jstr (String.singleton c)))
  | .jobj fs => some (fs.map (fun kv => JVal.jstr kv.1))
  | _ => none

/-- `process_batch` (lines 338–345): the completion call for a batch either
returns its structured result, or raises — in which case the batch degrades
to `{"taxonomy_name": name, "classifications": []}`.  The `outcome` argument
is the call's result for this batch (the external oracle). -/
def process_batch (taxonomy_name : String) (outcome : Except String JVal) : JVal :=
  match outcome with
  | .ok v => v
  | .error _ => .jobj [("taxonomy_name", .jstr taxonomy_name), ("classifications", .jarr [])]

/-- `r.get("classifications", [])` on a batch result. -/
def classificationsField (r : JVal) : JVal :=
  match r with
  | .jobj fs => (jLookup fs "classifications").getD (.jarr [])
  | _ => .jarr []

/-- The `merged.extend(r.get("classifications", []))` loop of lines 350–352,
with `merged` as the accumulator; `Except.error` models the `TypeError`
Python would raise if a result's `classifications` value were not iterable. -/
def extendAll (merged : List JVal) : List JVal → Except Unit (List JVal)
  | [] => .ok merged
  | r :: rest =>
    match pyIterate (classificationsField r) with
    | none => .error ()
    | some xs => extendAll (merged ++ xs) rest

/-- `run_batches` (lines 327–354): chunk the feedbacks with batch size
`max(1, batch_size)`, obtain each batch's result via `process_batch`, extend
`merged` with each result's classification list in order, and wrap the
result as `{"taxonomy_name": ..., "classifications": merged}`.  The
`oracle` maps each batch to its completion-call outcome. -/
def run_batches (taxonomy_name : String) (feedbacks : List Feedback) (batch_size : Int)
    (oracle : List Feedback → Except String JVal) : Except Unit JVal := do
  let size : Nat := (max 1 batch_size).toNat
  let results := (chunks feedbacks size).map (fun b => process_batch taxonomy_name (oracle b))
  let merged ← extendAll [] results
  return .jobj [("taxonomy_name", .jstr taxonomy_name), ("classifications", .jarr merged)]

/-- The element list of a JSON array (and `[]` on any other value). -/
def arrElems : JVal → List JVal
  | .jarr xs => xs
  | _ => []

/-- The classification list one batch contributes to the final result: empty
when the batch's completion call raised, the call's `classifications` array
otherwise (for schema-conforming call results). -/
def batchContribution (taxonomy_name : String) (outcome : Except String JVal) : List JVal :=
  arrElems (classificationsField (process_batch taxonomy_name outcome))

/-! ## `merge_taxonomies.py` -/

/-- `is_taxonomy_file` (lines 7–16): a dict holding a string
`taxonomy_name` and a list `classifications`. -/
def is_taxonomy_file : JVal → Bool
  | .jobj fs =>
    if ¬ (jHasKey fs "taxonomy_name" ∧ jHasKey fs "classifications") then false
    else
      match jLookup fs "taxonomy_name", jLookup fs "classifications" with
      | some (.jstr _), some (.jarr _) => true
      | _, _ => false
  | _ => false

/-- The `taxonomy_name` of a payload that passed `is_taxonomy_file`. -/
def taxNameOf : JVal → String
  | .jobj fs =>
    match jLookup fs "taxonomy_name" with
    | some (.jstr s) => s
    | _ => ""
  | _ => ""

/-- The `classifications` list of a payload that passed `is_taxonomy_file`. -/
def taxItemsOf : JVal → List JVal
  | .jobj fs =>
    match jLookup fs "classifications" with
    | some (.jarr xs) => xs
    | _ => []
  | _ => []

/-- The de-duplication key `(node_id, issue, level1, level2)`. -/
abbrev EntryKey := String × String × String × String

/-- `str(entry.get(field, ""))` on a classification entry's fields
(lines 75–79). -/
def entryField (fs : List (String × JVal)) (k : String) : String :=
  pyStr ((jLookup fs k).getD (.jstr ""))

/-- The key built for a classification entry (line 79). -/
def entryKey (fs : List (String × JVal)) : EntryKey :=
  (entryField fs "node_id", entryField fs "issue",
   entryField fs "level1", entryField fs "level2")

/-- The key of an arbitrary entry value (objects only; default elsewhere —
non-objects never reach the key computation). -/
def entryKeyOf : JVal → EntryKey
  | .jobj fs => entryKey fs
  | _ => ("", "", "", "")

/-- The accumulator for one taxonomy name: `taxonomy_to_items[name]` and
`taxonomy_to_seen[name]`.  The two Python dicts are keyed identically and
updated in lockstep, so they are modelled as one association list. -/
structure TaxAcc where
  name : String
  items : List JVal
  seen : List EntryKey

/-- The merge accumulation state (insertion-ordered, like a Python dict). -/
abbrev MergeState := List TaxAcc

/-- `taxonomy_to_seen[name]` (empty when the name is unregistered). -/
def seenOf (st : MergeState) (n : String) : List EntryKey :=
  match st.find? (fun a => a.name == n) with
  | some a => a.seen
  | none => []

/-- `taxonomy_to_items[name]` (empty when the name is unregistered). -/
def itemsOf (st : MergeState) (n : String) : List JVal :=
  match st.find? (fun a => a.name == n) with
  | some a => a.items
  | none => []

/-- Registration of a taxonomy name not yet seen (lines 68–70). -/
def ensureName (st : MergeState) (n : String) : MergeState :=
  if st.any (fun a => a.name == n) then st else st ++ [⟨n, [], []⟩]

/-- Appending a first-seen entry and its key under a name (lines 82–83). -/
def addEntry (st : MergeState) (n : String) (e : JVal) (k : EntryKey) : MergeState :=
  st.map (fun a => if a.name == n then ⟨a.name, a.items ++ [e], a.seen ++ [k]⟩ else a)

/-- The per-entry step of the accumulation loop (lines 72–83): skip
non-dict entries, skip entries whose key was already seen, otherwise
record the entry and its key. -/
def processEntry (n : String) (st : MergeState) (e : JVal) : MergeState :=
  match e with
  | .jobj fs =>
    let k := entryKey fs
    if k ∈ seenOf st n then st else addEntry st n e k
  | _ => st

/-- The accumulation loop over one file's `classifications`. -/
def processEntries (n : String) (l : List JVal) (st : MergeState) : MergeState :=
  l.foldl (processEntry n) st

/-- The merge-time errors: a file that fails `json.load`, a file that fails
the shape check (`ValueError`), and the final `RuntimeError` when nothing
valid was found. -/
inductive MergeErr where
  | loadFailed
  | invalidFormat
  | noValidFiles
deriving DecidableEq

/-- Processing of one input file inside `merge_taxonomies`' loop
(lines 52–83): a failed load or an invalid shape is skipped under
`ignore_errors` and raises otherwise; a valid file registers its taxonomy
name and accumulates its entries. -/
def processFile (ignore_errors : Bool) (st : MergeState) (file : Except Unit JVal) :
    Except MergeErr MergeState :=
  match file with
  | .error _ => if ignore_errors then .ok st else .error .loadFailed
  | .ok data =>
    if is_taxonomy_file data then
      let taxonomy_name := taxNameOf data
      let items := taxItemsOf data
      .ok (processEntries taxonomy_name items (ensureName st taxonomy_name))
    else
      if ignore_errors then .ok st else .error .invalidFormat

/-- The sort key of line 90: `(str(e.get("node_id", "")), str(e.get("issue", "")).lower())`. -/
def sortKey (e : JVal) : String × String :=
  match e with
  | .jobj fs => (entryField fs "node_id", pyLower (entryField fs "issue"))
  | _ => ("", "")

/-- The order on sort keys: Python tuple comparison, lexicographic on the
two strings. -/
def keyLE (a b : String × String) : Prop :=
  strLT a.1 b.1 ∨ (a.1 = b.1 ∧ strLE a.2 b.2)

instance : DecidableRel keyLE := fun a b =>
  inferInstanceAs (Decidable (strLT a.1 b.1 ∨ (a.1 = b.1 ∧ strLE a.2 b.2)))

/-- The induced order on classification entries. -/
def entryLE (a b : JVal) : Prop := keyLE (sortKey a) (sortKey b)

instance : DecidableRel entryLE := fun a b =>
  inferInstanceAs (Decidable (keyLE (sortKey a) (sortKey b)))

/-- `items.sort(key=...)` of lines 89–90 (Python's stable sort, modelled by
insertion sort, which is also stable). -/
def sortEntries (items : List JVal) : List JVal :=
  List.insertionSort entryLE items

/-- The single-taxonomy output shape (line 95). -/
def singleShape (taxonomy_name : String) (items : List JVal) : JVal :=
  .jobj [("taxonomy_name", .jstr taxonomy_name), ("classifications", .jarr items)]

/-- The post-accumulation rendering (lines 85–103): `RuntimeError` when no
taxonomy was registered, the single-taxonomy shape when exactly one was,
and the aggregate `{"taxonomies": [...]}` shape with names sorted otherwise;
each taxonomy's entry list is sorted (lines 89–90). -/
def renderMerged (st : MergeState) : Except MergeErr JVal :=
  match st with
  | [] => .error .noValidFiles
  | [a] => .ok (singleShape a.name (sortEntries a.items))
  | _ =>
    .ok (.jobj [("taxonomies", .jarr
      ((List.insertionSort strLE (st.map (fun a => a.name))).map
        (fun n => singleShape n (sortEntries (itemsOf st n)))))])

/-- `merge_taxonomies` (lines 48–103): process every input file (each given
as its load outcome), then render the accumulated state. -/
def merge_taxonomies (input_files : List (Except Unit JVal)) (ignore_errors : Bool) :
    Except MergeErr JVal := do
  let st ← input_files.foldlM (processFile ignore_errors) ([] : MergeState)
  renderMerged st

instance : IsTotal JVal entryLE :=
  ⟨by
    intro a b
    simp only [entryLE, keyLE, strLT, strLE]
    rcases lt_trichotomy (sortKey a).1.data (sortKey b).1.data with h | h | h
    · exact Or.inl (Or.inl h)
    · rcases le_total (sortKey a).2.data (sortKey b).2.data with h2 | h2
      · exact Or.inl (Or.inr ⟨String.ext h, h2⟩)
      · exact Or.inr (Or.inr ⟨String.ext h.symm, h2⟩)
    · exact Or.inr (Or.inl h)⟩

instance : IsTrans JVal entryLE :=
  ⟨by
    intro a b c hab hbc
    simp only [entryLE, keyLE, strLT, strLE] at hab hbc ⊢
    rcases hab with hab | ⟨hab1, hab2⟩
    · rcases hbc with hbc | ⟨hbc1, hbc2⟩
      · exact Or.inl (lt_trans hab hbc)
      · exact Or.inl (by rw [← hbc1]; exact hab)
    · rcases hbc with hbc | ⟨hbc1, hbc2⟩
      · exact Or.inl (by rw [hab1]; exact hbc)
      · exact Or.inr ⟨hab1.trans hbc1, le_trans hab2 hbc2⟩⟩

/-- A well-formed taxonomy file payload built from a name and an entry list. -/
def mkTax (taxonomy_name : String) (items : List JVal) : JVal :=
  .jobj [("taxonomy_name", .jstr taxonomy_name), ("classifications", .jarr items)]

/-- Whether an input file loads and passes the `TaxonomyFile` shape check. -/
def goodFile : Except Unit JVal → Bool
  | .ok d => is_taxonomy_file d
  | .error _ => false

/-- The error a failing input file raises when `ignore_errors` is unset. -/
def badErr : Except Unit JVal → MergeErr
  | .error _ => .loadFailed
  | .ok _ => .invalidFormat

/-- The accumulation over one entry list, written as a direct recursion:
given the keys already seen, it returns the entries kept (first occurrence
of each key, objects only) and the final seen-key list.  `processEntries`
computes exactly this on the accumulator of the entry's taxonomy name. -/
def dedupStep (seen : List EntryKey) : List JVal → List JVal × List EntryKey
  | [] => ([], seen)
  | e :: rest =>
    match e with
    | .jobj fs =>
      let k := entryKey fs
      if k ∈ seen then dedupStep seen rest
      else
        let p := dedupStep (seen ++ [k]) rest
        (e :: p.1, p.2)
    | _ => dedupStep seen rest

/-- The entries a single file contributes when processed from a fresh state. -/
def dedupItems (items : List JVal) : List JVal :=
  (dedupStep [] items).1

/-- The taxonomy name a valid file adds to the observed-name list, when not
yet present. -/
def addName (acc : List String) (f : Except Unit JVal) : List String :=
  match f with
  | .ok d =>
    if is_taxonomy_file d then
      if acc.any (fun x => x == taxNameOf d) then acc else acc ++ [taxNameOf d]
    else acc
  | .error _ => acc

/-- The distinct taxonomy names observed across the valid input files, in
first-occurrence order — the key set of `taxonomy_to_items` after the loop. -/
def distinctNames (files : List (Except Unit JVal)) : List String :=
  files.foldl addName []

/-! ## Batching lemmas (`chunks`) -/

theorem pyRangeTo_shift (n s i : Nat) :
    pyRangeTo n s (i + s) = (pyRangeTo (n - s) s i).map (fun j => j + s) := by
  by_cases h : i < n - s ∧ 0 < s
  · have h2 : i + s < n ∧ 0 < s := ⟨by omega, h.2⟩
    conv_lhs => rw [pyRangeTo]
    conv_rhs => rw [pyRangeTo]
    rw [dif_pos h2, dif_pos h, List.map_cons]
    exact congrArg (List.cons (i + s)) (pyRangeTo_shift n s (i + s))
  · have h2 : ¬ (i + s < n ∧ 0 < s) := by omega
    conv_lhs => rw [pyRangeTo]
    conv_rhs => rw [pyRangeTo]
    rw [dif_neg h2, dif_neg h, List.map_nil]
termination_by n - i
decreasing_by omega

theorem chunks_nil (s : Nat) : chunks ([] : List α) s = [] := by
  unfold chunks
  conv_lhs => rw [pyRangeTo]
  rw [dif_neg]
  · rfl
  · simp

theorem chunks_cons (seq : List α) (s : Nat) (hs : 0 < s) (hne : seq ≠ []) :
    chunks seq s = seq.take s :: chunks (seq.drop s) s := by
  have hn : 0 < seq.length := List.length_pos.2 hne
  rw [chunks]
  conv_lhs => rw [pyRangeTo]
  rw [dif_pos ⟨hn, hs⟩, List.map_cons, pyRangeTo_shift seq.length s 0, List.map_map]
  refine congrArg₂ List.cons ?_ ?_
  · simp [pySlice]
  · rw [chunks, List.length_drop]
    apply List.map_congr_left
    intro j _
    simp [Function.comp, pySlice, List.drop_drop, Nat.add_comm]

theorem chunks_flatten (seq : List α) (s : Nat) (hs : 0 < s) :
    (chunks seq s).flatten = seq := by
  by_cases hne : seq = []
  · subst hne; rw [chunks_nil]; rfl
  · rw [chunks_cons seq s hs hne, List.flatten_cons,
        chunks_flatten (seq.drop s) s hs, List.take_append_drop]
termination_by seq.length
decreasing_by
  rw [List.length_drop]
  have := List.length_pos.2 hne
  omega

theorem chunks_length_eq (seq : List α) (s : Nat) (hs : 0 < s) :
    (chunks seq s).length = (seq.length + s - 1) / s := by
  by_cases hne : seq = []
  · subst hne
    rw [chunks_nil]
    simp only [List.length_nil, Nat.zero_add]
    exact (Nat.div_eq_of_lt (by omega)).symm
  · rw [chunks_cons seq s hs hne, List.length_cons,
        chunks_length_eq (seq.drop s) s hs, List.length_drop]
    have hn : 0 < seq.length := List.length_pos.2 hne
    rcases le_or_lt s seq.length with h | h
    · have e1 : seq.length - s + s - 1 = seq.length - 1 := by omega
      have e2 : seq.length + s - 1 = (seq.length - 1) + s := by omega
      rw [e1, e2, Nat.add_div_right _ hs]
    · have e1 : seq.length - s = 0 := by omega
      have e2 : seq.length + s - 1 = (seq.length - 1) + s := by omega
      rw [e1, e2, Nat.add_div_right _ hs]
      have q1 : (0 + s - 1) / s = 0 := Nat.div_eq_of_lt (by omega)
      have q2 : (seq.length - 1) / s = 0 := Nat.div_eq_of_lt (by omega)
      omega
termination_by seq.length
decreasing_by
  rw [List.length_drop]
  have := List.length_pos.2 hne
  omega

theorem chunks_dropLast_sizes (seq : List α) (s : Nat) (hs : 0 < s) :
    ∀ b ∈ (chunks seq s).dropLast, b.length = s := by
  by_cases hne : seq = []
  · subst hne; rw [chunks_nil]; intro b hb; simp at hb
  · rw [chunks_cons seq s hs hne]
    by_cases h2 : chunks (seq.drop s) s = []
    · rw [h2]; intro b hb; simp at hb
    · rw [List.dropLast_cons_of_ne_nil h2]
      intro b hb
      rcases List.mem_cons.1 hb with rfl | hb
      · have hd : seq.drop s ≠ [] := by
          intro hd; rw [hd, chunks_nil] at h2; exact h2 rfl
        have hlt : s < seq.length := by
          have := List.length_pos.2 hd
          rw [List.length_drop] at this
          omega
        rw [List.length_take]
        omega
      · exact chunks_dropLast_sizes (seq.drop s) s hs b hb
termination_by seq.length
decreasing_by
  rw [List.length_drop]
  have := List.length_pos.2 hne
  omega

theorem chunks_getLast (seq : List α) (s : Nat) (hs : 0 < s) (hne : seq ≠ []) :
    ∃ b, (chunks seq s).getLast? = some b ∧
      b.length = (if seq.length % s = 0 then s else seq.length % s) := by
  rw [chunks_cons seq s hs hne]
  by_cases h2 : seq.drop s = []
  · rw [h2, chunks_nil]
    refine ⟨seq.take s, rfl, ?_⟩
    have hlen : seq.length ≤ s := by
      have := congrArg List.length h2
      rw [List.length_drop] at this
      simp only [List.length_nil] at this
      omega
    have hn : 0 < seq.length := List.length_pos.2 hne
    rw [List.length_take]
    rcases eq_or_lt_of_le hlen with h | h
    · rw [h]
      simp [Nat.mod_self]
    · have : seq.length % s = seq.length := Nat.mod_eq_of_lt h
      rw [this]
      have : ¬ seq.length = 0 := by omega
      simp only [if_neg this]
      omega
  · have h3 : chunks (seq.drop s) s ≠ [] := by
      rw [chunks_cons (seq.drop s) s hs h2]
      simp
    obtain ⟨b, hb, hlen⟩ := chunks_getLast (seq.drop s) s hs h2
    refine ⟨b, ?_, ?_⟩
    · rw [List.getLast?_cons, hb]
      rfl
    · rw [List.length_drop] at hlen
      have hsl : s ≤ seq.length := by
        by_contra hlt
        push_neg at hlt
        exact h2 (List.drop_eq_nil_of_le (by omega))
      have hmod : (seq.length - s) % s = seq.length % s := by
        conv_rhs => rw [show seq.length = (seq.length - s) + s by omega]
        rw [Nat.add_mod_right]
      rw [hmod] at hlen
      exact hlen
termination_by seq.length
decreasing_by
  rw [List.length_drop]
  have := List.length_pos.2 hne
  omega

/-- C4: for every list of feedback items of length `N` and every batch size
`B ≥ 1`, `chunks` produces `⌈N/B⌉` contiguous batches whose concatenation
equals the original list in order, every batch except possibly the last has
exactly `B` elements, and the last batch has `N mod B` elements (or `B`
when `B` divides `N`). -/
theorem chunks_spec {α : Type} (l : List α) (B : Nat) (hB : 1 ≤ B) :
    (chunks l B).length = (l.length + B - 1) / B ∧
    (chunks l B).flatten = l ∧
    (∀ b ∈ (chunks l B).dropLast, b.length = B) ∧
    (l ≠ [] → ∃ b, (chunks l B).getLast? = some b ∧
      b.length = (if l.length % B = 0 then B else l.length % B)) :=
  ⟨chunks_length_eq l B hB, chunks_flatten l B hB, chunks_dropLast_sizes l B hB,
   fun hne => chunks_getLast l B hB hne⟩

/-- Witness for `chunks_spec` at a concrete five-element list and `B = 2`. -/
theorem chunks_spec_witness :
    1 ≤ 2 ∧
    ((chunks ["a", "b", "c", "d", "e"] 2).length = (5 + 2 - 1) / 2 ∧
      (chunks ["a", "b", "c", "d", "e"] 2).flatten = ["a", "b", "c", "d", "e"]) :=
  ⟨by decide,
   ⟨(chunks_spec ["a", "b", "c", "d", "e"] 2 (by decide)).1,
    (chunks_spec ["a", "b", "c", "d", "e"] 2 (by decide)).2.1⟩⟩

/-! ## Node sampling (`main_async`) -/

theorem sample_length (population : List α) (idxs : List Nat)
    (hlt : ∀ i ∈ idxs, i < population.length) :
    (sample population idxs).length = idxs.length := by
  induction idxs with
  | nil => rfl
  | cons i rest ih =>
    have hi : i < population.length := hlt i (List.mem_cons_self i rest)
    have hrest := ih (fun j hj => hlt j (List.mem_cons_of_mem _ hj))
    simp only [sample, List.filterMap_cons] at hrest ⊢
    rw [List.getElem?_eq_getElem hi]
    simp only [List.length_cons]
    omega

theorem sample_mem (population : List α) (idxs : List Nat) :
    ∀ x ∈ sample population idxs, x ∈ population := by
  intro x hx
  obtain ⟨i, _, hfi⟩ := List.mem_filterMap.1 hx
  obtain ⟨h, he⟩ := List.getElem?_eq_some.1 hfi
  exact he ▸ List.getElem_mem h

theorem sample_nodup (population : List α) (idxs : List Nat)
    (hnd : idxs.Nodup) (hpop : population.Nodup) : (sample population idxs).Nodup := by
  refine List.Nodup.filterMap ?_ hnd
  intro a b c hca hcb
  have hca' : population[a]? = some c := hca
  have hcb' : population[b]? = some c := hcb
  have ha : a < population.length := (List.getElem?_eq_some.1 hca').1
  exact List.getElem?_inj ha hpop (hca'.trans hcb'.symm)

/-- C9: with `idxs` the distinct in-range positions chosen by
`random.sample`, when the node count exceeds `max_nodes > 0` the analyzer
selects exactly `max_nodes` nodes, each drawn from the input list, all
distinct when the input nodes are distinct (so no node is processed twice);
otherwise every node is processed. -/
theorem node_sampling_spec (all_nodes : List Node) (max_nodes : Int) (idxs : List Nat)
    (hlen : idxs.length = max_nodes.toNat) (hnd : idxs.Nodup)
    (hlt : ∀ i ∈ idxs, i < all_nodes.length) :
    ((0 < max_nodes ∧ max_nodes < (all_nodes.length : Int)) →
      (selectNodes all_nodes max_nodes idxs).length = max_nodes.toNat ∧
      (∀ x ∈ selectNodes all_nodes max_nodes idxs, x ∈ all_nodes) ∧
      (all_nodes.Nodup → (selectNodes all_nodes max_nodes idxs).Nodup)) ∧
    (¬ (0 < max_nodes ∧ max_nodes < (all_nodes.length : Int)) →
      selectNodes all_nodes max_nodes idxs = all_nodes) := by
  constructor
  · intro hcond
    rw [selectNodes, if_pos hcond]
    exact ⟨(sample_length _ _ hlt).trans hlen, sample_mem _ _,
      fun hp => sample_nodup _ _ hnd hp⟩
  · intro hcond
    rw [selectNodes, if_neg hcond]

/-- Witness for `node_sampling_spec`: three distinct nodes, `max_nodes = 2`,
sampled positions `[2, 0]`. -/
theorem node_sampling_spec_witness :
    ([2, 0].length = (2 : Int).toNat ∧ [2, 0].Nodup ∧
      (∀ i ∈ [2, 0],
        i < ([⟨some "a", none, none, none, none⟩,
              ⟨some "b", none, none, none, none⟩,
              ⟨some "c", none, none, none, none⟩] : List Node).length)) ∧
    (selectNodes [⟨some "a", none, none, none, none⟩,
              ⟨some "b", none, none, none, none⟩,
              ⟨some "c", none, none, none, none⟩] 2 [2, 0]).length = (2 : Int).toNat :=
  ⟨⟨by decide, by decide, by decide⟩,
   ((node_sampling_spec _ 2 [2, 0] (by decide) (by decide) (by decide)).1
      ⟨by decide, by decide⟩).1⟩

/-! ## The parent-analysis slot (`analyze_single_node`, lines 82–89) -/

/-- C2 counterexample: a node whose parent identifier is the *empty string*
while the empty string is a key of the mapping and that parent's analysis
text `"ok"` is non-blank.  The claim's three sentinel conditions all fail
(the parent identifier is present, it is a key, the analysis is non-blank),
so the claim requires the slot to equal `"ok"`; the code's truthiness test
(`if parent_id and ...`) yields the sentinel instead. -/
theorem parent_analysis_slot_counterexample :
    parentAnalysisSlot ⟨some "n", some "", none, none, none⟩
        [("", ⟨some "", none, none, none, some "ok"⟩)] = "No parent node" ∧
    (⟨some "n", some "", none, none, none⟩ : Node).parent = some "" ∧
    lookupNode [("", ⟨some "", none, none, none, some "ok"⟩)] "" =
      some ⟨some "", none, none, none, some "ok"⟩ ∧
    pyStrip ((⟨some "", none, none, none, some "ok"⟩ : Node).analysis.getD "") = "ok" ∧
    ("ok" : String) ≠ "" ∧ ("No parent node" : String) ≠ "ok" :=
  ⟨rfl, rfl, rfl, rfl, by decide, by decide⟩

/-- C2 (amended): the parent-analysis slot is the literal sentinel
`"No parent node"` when the parent identifier is absent *or empty*, is not
a key of the mapping, or the parent's analysis text is blank after trimming
whitespace; in every other case it is the parent's analysis text unchanged. -/
theorem parent_analysis_slot_spec (node : Node) (m : List (String × Node)) :
    ((node.parent = none ∨ node.parent = some "" ∨
      (∀ pid, node.parent = some pid → lookupNode m pid = none) ∨
      (∃ pid p, node.parent = some pid ∧ lookupNode m pid = some p ∧
        pyStrip (p.analysis.getD "") = "")) →
      parentAnalysisSlot node m = noParentSentinel) ∧
    (∀ pid p, node.parent = some pid → pid ≠ "" → lookupNode m pid = some p →
      pyStrip (p.analysis.getD "") ≠ "" →
      parentAnalysisSlot node m = p.analysis.getD "") := by
  constructor
  · intro h
    rcases h with h | h | h | ⟨pid, p, hp, hl, hb⟩
    · simp [parentAnalysisSlot, h]
    · simp [parentAnalysisSlot, h]
    · cases hp : node.parent with
      | none => simp [parentAnalysisSlot, hp]
      | some pid =>
        by_cases hpid : pid = ""
        · simp [parentAnalysisSlot, hp, hpid]
        · simp [parentAnalysisSlot, hp, hpid, h pid hp]
    · by_cases hpid : pid = ""
      · simp [parentAnalysisSlot, hp, hpid]
      · simp [parentAnalysisSlot, hp, hpid, hl, hb]
  · intro pid p hp hpid hl hb
    simp [parentAnalysisSlot, hp, hpid, hl, hb]

/-- Witness for `parent_analysis_slot_spec`: a parent `"p"` with non-blank
analysis `"ok"`; the slot is that analysis text. -/
theorem parent_analysis_slot_spec_witness :
    parentAnalysisSlot ⟨some "n", some "p", none, none, none⟩
        [("p", ⟨some "p", none, none, none, some "ok"⟩)] =
      ((⟨some "p", none, none, none, some "ok"⟩ : Node).analysis.getD "") :=
  (parent_analysis_slot_spec ⟨some "n", some "p", none, none, none⟩
      [("p", ⟨some "p", none, none, none, some "ok"⟩)]).2
    "p" ⟨some "p", none, none, none, some "ok"⟩ rfl (by decide) rfl (by decide)

/-! ## Prompt assembly (`build_user_prompt`, `analyze_single_node`) -/

theorem build_user_prompt_data (plan code run_analysis : String) :
    (build_user_prompt plan code run_analysis).data =
      "<plan>\n".data ++ (plan.data ++ ("\n".data ++ ("</plan>\n\n".data ++
      ("<code>\n".data ++ (code.data ++ ("\n".data ++ ("</code>\n\n".data ++
      ("<run_analysis>\n".data ++ (run_analysis.data ++ ("\n".data ++
      "</run_analysis>\n".data)))))))))) := by
  simp [build_user_prompt, String.data_append]

set_option maxRecDepth 200000 in
/-- C1 counterexample: a node whose parent is in the mapping with non-blank
analysis `"PARENTTEXT"`; the prompt `analyze_single_node` sends for the node
contains the plan, code and run-analysis texts but not the parent's
analysis, so not all four parts appear in it. -/
theorem analysis_prompt_counterexample :
    parentAnalysisSlot ⟨some "n", some "p", some "PLAN", some "CODE", some "RUN"⟩
        [("p", ⟨some "p", none, none, none, some "PARENTTEXT"⟩)] = "PARENTTEXT" ∧
    userPromptFor ⟨some "n", some "p", some "PLAN", some "CODE", some "RUN"⟩
        [("p", ⟨some "p", none, none, none, some "PARENTTEXT"⟩)] =
      "<plan>\nPLAN\n</plan>\n\n<code>\nCODE\n</code>\n\n<run_analysis>\nRUN\n</run_analysis>\n" ∧
    ¬ ("PARENTTEXT".data <:+:
        (userPromptFor ⟨some "n", some "p", some "PLAN", some "CODE", some "RUN"⟩
          [("p", ⟨some "p", none, none, none, some "PARENTTEXT"⟩)]).data) := by
  refine ⟨rfl, rfl, ?_⟩
  intro h
  revert h
  exact of_decide_eq_false (by decide)

/-- C1 (amended): the prompt sent for a node embeds the node's plan, code
and run-analysis texts (it is exactly `build_user_prompt` applied to them);
the parent's prior analysis is computed but is not part of the prompt. -/
theorem analysis_prompt_parts (node : Node) (m : List (String × Node)) :
    userPromptFor node m =
      build_user_prompt (node.plan.getD "") (node.code.getD "") (node.analysis.getD "") ∧
    (node.plan.getD "").data <:+: (userPromptFor node m).data ∧
    (node.code.getD "").data <:+: (userPromptFor node m).data ∧
    (node.analysis.getD "").data <:+: (userPromptFor node m).data := by
  refine ⟨rfl, ?_, ?_, ?_⟩
  all_goals
    rw [show userPromptFor node m =
      build_user_prompt (node.plan.getD "") (node.code.getD "") (node.analysis.getD "") from rfl]
    rw [build_user_prompt_data]
  · refine ⟨"<plan>\n".data,
      "\n".data ++ ("</plan>\n\n".data ++ ("<code>\n".data ++ ((node.code.getD "").data ++
      ("\n".data ++ ("</code>\n\n".data ++ ("<run_analysis>\n".data ++
      ((node.analysis.getD "").data ++ ("\n".data ++ "</run_analysis>\n".data)))))))), ?_⟩
    simp [List.append_assoc]
  · refine ⟨"<plan>\n".data ++ ((node.plan.getD "").data ++ ("\n".data ++ ("</plan>\n\n".data ++
      "<code>\n".data))),
      "\n".data ++ ("</code>\n\n".data ++ ("<run_analysis>\n".data ++
      ((node.analysis.getD "").data ++ ("\n".data ++ "</run_analysis>\n".data)))), ?_⟩
    simp [List.append_assoc]
  · refine ⟨"<plan>\n".data ++ ((node.plan.getD "").data ++ ("\n".data ++ ("</plan>\n\n".data ++
      ("<code>\n".data ++ ((node.code.getD "").data ++ ("\n".data ++ ("</code>\n\n".data ++
      "<run_analysis>\n".data))))))),
      "\n".data ++ "</run_analysis>\n".data, ?_⟩
    simp [List.append_assoc]

/-! ## Feedback collection (`collect_feedbacks`) -/

theorem readCandidate_fst (c : Candidate) (x : Feedback) (hx : readCandidate c = some x) :
    x.1 = c.1 := by
  rw [readCandidate] at hx
  rcases c with ⟨nid, r⟩
  cases r with
  | error e => exact absurd hx (by simp)
  | ok txt =>
    simp only at hx
    by_cases hb : pyStrip txt = ""
    · rw [if_pos hb] at hx
      exact absurd hx (by simp)
    · rw [if_neg hb] at hx
      cases hx
      rfl

theorem readCandidate_eq_some (c : Candidate) (nid : String) (t : String) :
    readCandidate c = some (nid, t) ↔
      c.1 = nid ∧ t ≠ "" ∧ ∃ s, c.2 = .ok s ∧ pyStrip s = t := by
  rcases c with ⟨n, r⟩
  constructor
  · intro hx
    rw [readCandidate] at hx
    cases r with
    | error e => exact absurd hx (by simp)
    | ok txt =>
      simp only at hx
      by_cases hb : pyStrip txt = ""
      · rw [if_pos hb] at hx
        exact absurd hx (by simp)
      · rw [if_neg hb] at hx
        rw [Option.some_inj] at hx
        cases hx
        exact ⟨rfl, hb, txt, rfl, rfl⟩
  · rintro ⟨rfl, ht, s, hs, rfl⟩
    simp only at hs
    subst hs
    rw [readCandidate]
    simp only [if_neg ht]

/-- C8: when `collect_feedbacks` succeeds, the returned items are exactly
the discovered candidates whose `output.txt` is readable and non-empty
after trimming (carrying the trimmed text), sorted by node identifier; in
particular, for a root with `node1/output.txt = "slow loop"` and
`node2/output.txt = ""`, the result is exactly one item, for `node1`. -/
theorem collect_feedbacks_spec (root : List RootEntry) (l : List Feedback)
    (h : collect_feedbacks root = .ok l) :
    l.Pairwise (fun a b => strLE a.1 b.1) ∧
    (∀ nid t, (nid, t) ∈ l ↔
      (t ≠ "" ∧ ∃ s, (nid, Except.ok s) ∈ discoveredCandidates root ∧ pyStrip s = t)) ∧
    collect_feedbacks [⟨"node1", some (.ok "slow loop"), []⟩, ⟨"node2", some (.ok ""), []⟩]
      = .ok [("node1", "slow loop")] := by
  simp only [collect_feedbacks] at h
  split at h
  · exact absurd h (by simp)
  · rw [Except.ok.injEq] at h
    subst h
    refine ⟨?_, ?_, rfl⟩
    · have hs : (List.insertionSort candLE (discoveredCandidates root)).Pairwise candLE :=
        List.sorted_insertionSort candLE (discoveredCandidates root)
      rw [List.pairwise_filterMap]
      refine hs.imp ?_
      intro a b hab x hx y hy
      have hxa := readCandidate_fst a x hx
      have hyb := readCandidate_fst b y hy
      rw [hxa, hyb]
      exact hab
    · intro nid t
      rw [List.mem_filterMap]
      constructor
      · rintro ⟨c, hc, hread⟩
        rw [List.mem_insertionSort] at hc
        obtain ⟨hfst, ht, s, hs, hstrip⟩ := (readCandidate_eq_some c nid t).1 hread
        refine ⟨ht, s, ?_, hstrip⟩
        rcases c with ⟨n, r⟩
        simp only at hfst hs
        subst hfst
        subst hs
        exact hc
      · rintro ⟨ht, s, hmem, hstrip⟩
        refine ⟨(nid, .ok s), ?_, ?_⟩
        · rw [List.mem_insertionSort]
          exact hmem
        · exact (readCandidate_eq_some _ nid t).2 ⟨rfl, ht, s, rfl, hstrip⟩

/-- Witness for `collect_feedbacks_spec` at the scenario root. -/
theorem collect_feedbacks_spec_witness :
    collect_feedbacks [⟨"node1", some (.ok "slow loop"), []⟩, ⟨"node2", some (.ok ""), []⟩]
        = .ok [("node1", "slow loop")] ∧
    List.Pairwise (fun a b => strLE a.1 b.1) [(("node1" : String), ("slow loop" : String))] :=
  ⟨rfl,
   (collect_feedbacks_spec
      [⟨"node1", some (.ok "slow loop"), []⟩, ⟨"node2", some (.ok ""), []⟩]
      [("node1", "slow loop")] rfl).1⟩

/-! ## Batch classification (`run_batches`) -/

theorem extendAll_ok (results : List JVal) (acc : List JVal)
    (h : ∀ r ∈ results, ∃ xs, classificationsField r = .jarr xs) :
    extendAll acc results =
      .ok (acc ++ (results.map (fun r => arrElems (classificationsField r))).flatten) := by
  induction results generalizing acc with
  | nil => simp [extendAll]
  | cons r rest ih =>
    obtain ⟨xs, hxs⟩ := h r (List.mem_cons_self r rest)
    rw [extendAll, hxs]
    simp only [pyIterate]
    rw [ih (acc ++ xs) (fun q hq => h q (List.mem_cons_of_mem _ hq))]
    simp [hxs, arrElems, List.append_assoc]

/-- C6: whenever every successful completion call returns a structured
object whose `classifications` value is an array (as the strict response
schema guarantees), `run_batches` completes with
`{"taxonomy_name": the known name, "classifications": the concatenation of
every batch's contribution}`, never a propagated failure — and a batch whose
call raised contributes the empty classification list. -/
theorem run_batches_spec (taxonomy_name : String) (feedbacks : List Feedback)
    (batch_size : Int) (oracle : List Feedback → Except String JVal)
    (hschema : ∀ b ∈ chunks feedbacks (max 1 batch_size).toNat, ∀ v, oracle b = .ok v →
      ∃ xs, classificationsField v = .jarr xs) :
    run_batches taxonomy_name feedbacks batch_size oracle =
      .ok (.jobj [("taxonomy_name", .jstr taxonomy_name),
        ("classifications", .jarr
          (((chunks feedbacks (max 1 batch_size).toNat).map
            (fun b => batchContribution taxonomy_name (oracle b))).flatten))]) ∧
    (∀ b e, oracle b = .error e → batchContribution taxonomy_name (oracle b) = []) := by
  constructor
  · have hall : ∀ r ∈ (chunks feedbacks (max 1 batch_size).toNat).map
        (fun b => process_batch taxonomy_name (oracle b)),
        ∃ xs, classificationsField r = .jarr xs := by
      intro r hr
      obtain ⟨b, hb, rfl⟩ := List.mem_map.1 hr
      cases ho : oracle b with
      | ok v => exact hschema b hb v ho
      | error e => exact ⟨[], rfl⟩
    simp only [run_batches]
    rw [extendAll_ok _ _ hall]
    simp only [batchContribution, List.map_map]
    rfl
  · intro b e he
    rw [he]
    rfl

/-- Witness for `run_batches_spec`: three feedbacks in batches of two, the
first batch's call raising and the second returning an empty valid result. -/
theorem run_batches_spec_witness :
    run_batches "T" [("a", "x"), ("b", "y"), ("c", "z")] 2
        (fun b => if b.length = 2 then .error "boom" else .ok (mkTax "T" [])) =
      .ok (.jobj [("taxonomy_name", .jstr "T"), ("classifications", .jarr [])]) := by
  refine ((run_batches_spec "T" [("a", "x"), ("b", "y"), ("c", "z")] 2
      (fun b => if b.length = 2 then .error "boom" else .ok (mkTax "T" [])) ?_).1).trans ?_
  · intro b hb v hv
    simp [chunks, pyRangeTo, pySlice] at hb
    rcases hb with rfl | rfl
    · simp at hv
    · simp at hv
      subst hv
      exact ⟨[], rfl⟩
  · simp [chunks, pyRangeTo, pySlice, batchContribution, process_batch,
      classificationsField, jLookup, arrElems, mkTax]

/-! ## Merge state lemmas -/

theorem find?_name_eq (n : String) (pre post : MergeState) (a : TaxAcc)
    (han : a.name = n) (hpre : ∀ x ∈ pre, x.name ≠ n) :
    (pre ++ a :: post).find? (fun x => x.name == n) = some a := by
  induction pre with
  | nil =>
    have hb : (a.name == n) = true := beq_iff_eq.2 han
    simp only [List.nil_append, List.find?_cons, hb]
  | cons p ps ih =>
    have hb : (p.name == n) = false :=
      beq_eq_false_iff_ne.2 (hpre p (List.mem_cons_self p ps))
    simp only [List.cons_append, List.find?_cons, hb]
    exact ih (fun x hx => hpre x (List.mem_cons_of_mem p hx))

theorem seenOf_eq (n : String) (pre post : MergeState) (a : TaxAcc)
    (han : a.name = n) (hpre : ∀ x ∈ pre, x.name ≠ n) :
    seenOf (pre ++ a :: post) n = a.seen := by
  rw [seenOf, find?_name_eq n pre post a han hpre]

theorem addEntry_eq (n : String) (pre post : MergeState) (a : TaxAcc) (e : JVal) (k : EntryKey)
    (han : a.name = n) (hpre : ∀ x ∈ pre, x.name ≠ n) (hpost : ∀ x ∈ post, x.name ≠ n) :
    addEntry (pre ++ a :: post) n e k =
      pre ++ ⟨a.name, a.items ++ [e], a.seen ++ [k]⟩ :: post := by
  have hmap : ∀ l : MergeState, (∀ x ∈ l, x.name ≠ n) →
      l.map (fun x => if x.name == n then
        (⟨x.name, x.items ++ [e], x.seen ++ [k]⟩ : TaxAcc) else x) = l := by
    intro l hl
    induction l with
    | nil => rfl
    | cons p ps ih =>
      rw [List.map_cons, if_neg, ih (fun x hx => hl x (List.mem_cons_of_mem p hx))]
      intro hc
      exact hl p (List.mem_cons_self p ps) (beq_iff_eq.1 hc)
  rw [addEntry, List.map_append, List.map_cons, hmap pre hpre, hmap post hpost,
    if_pos (beq_iff_eq.2 han)]

theorem isObj_iff (e : JVal) : isObj e = true ↔ ∃ fs, e = .jobj fs := by
  cases e <;> simp [isObj]

theorem processEntry_not_obj (n : String) (st : MergeState) (e : JVal)
    (h : isObj e = false) : processEntry n st e = st := by
  cases e <;> first | rfl | simp [isObj] at h

theorem dedupStep_cons_not_obj (seen : List EntryKey) (e : JVal) (rest : List JVal)
    (h : isObj e = false) : dedupStep seen (e :: rest) = dedupStep seen rest := by
  cases e <;> first | rfl | simp [isObj] at h

theorem dedupStep_cons_obj_seen (seen : List EntryKey) (fs : List (String × JVal))
    (rest : List JVal) (hk : entryKey fs ∈ seen) :
    dedupStep seen (.jobj fs :: rest) = dedupStep seen rest := by
  rw [dedupStep]
  simp only
  rw [if_pos hk]

theorem dedupStep_cons_obj_new (seen : List EntryKey) (fs : List (String × JVal))
    (rest : List JVal) (hk : entryKey fs ∉ seen) :
    dedupStep seen (.jobj fs :: rest) =
      (.jobj fs :: (dedupStep (seen ++ [entryKey fs]) rest).1,
       (dedupStep (seen ++ [entryKey fs]) rest).2) := by
  rw [dedupStep]
  simp only
  rw [if_neg hk]

theorem processEntries_eq (n : String) (l : List JVal) (pre post : MergeState) (a : TaxAcc)
    (han : a.name = n) (hpre : ∀ x ∈ pre, x.name ≠ n) (hpost : ∀ x ∈ post, x.name ≠ n) :
    processEntries n l (pre ++ a :: post) =
      pre ++ ⟨n, a.items ++ (dedupStep a.seen l).1, (dedupStep a.seen l).2⟩ :: post := by
  induction l generalizing a with
  | nil =>
    simp only [processEntries, List.foldl_nil, dedupStep, List.append_nil]
    rw [← han]
  | cons e rest ih =>
    simp only [processEntries, List.foldl_cons] at ih ⊢
    by_cases ho : isObj e = true
    · obtain ⟨fs, rfl⟩ := (isObj_iff e).1 ho
      by_cases hk : entryKey fs ∈ a.seen
      · have hpe : processEntry n (pre ++ a :: post) (.jobj fs) = pre ++ a :: post := by
          rw [processEntry]
          rw [if_pos]
          rwa [seenOf_eq n pre post a han hpre]
        rw [hpe, ih a han, dedupStep_cons_obj_seen a.seen fs rest hk]
      · have hpe : processEntry n (pre ++ a :: post) (.jobj fs) =
            pre ++ (⟨a.name, a.items ++ [.jobj fs], a.seen ++ [entryKey fs]⟩ : TaxAcc) :: post := by
          rw [processEntry]
          rw [if_neg, addEntry_eq n pre post a _ _ han hpre hpost]
          rwa [seenOf_eq n pre post a han hpre]
        have harg : (⟨a.name, a.items ++ [JVal.jobj fs], a.seen ++ [entryKey fs]⟩ : TaxAcc).name
            = n := han
        rw [hpe, ih _ harg, dedupStep_cons_obj_new a.seen fs rest hk]
        simp [List.append_assoc]
    · rw [processEntry_not_obj n _ e (by simpa using ho), ih a han,
        dedupStep_cons_not_obj a.seen e rest (by simpa using ho)]

theorem entryKeyOf_jobj (fs : List (String × JVal)) : entryKeyOf (.jobj fs) = entryKey fs := rfl

theorem dedupStep_snd_extends (seen : List EntryKey) (l : List JVal) :
    ∃ ks, (dedupStep seen l).2 = seen ++ ks := by
  induction l generalizing seen with
  | nil => exact ⟨[], by simp [dedupStep]⟩
  | cons f rest ih =>
    by_cases ho : isObj f = true
    · obtain ⟨fs, rfl⟩ := (isObj_iff f).1 ho
      by_cases hk : entryKey fs ∈ seen
      · rw [dedupStep_cons_obj_seen seen fs rest hk]
        exact ih seen
      · rw [dedupStep_cons_obj_new seen fs rest hk]
        obtain ⟨ks, hks⟩ := ih (seen ++ [entryKey fs])
        exact ⟨[entryKey fs] ++ ks, by simp [hks, List.append_assoc]⟩
    · rw [dedupStep_cons_not_obj seen f rest (by simpa using ho)]
      exact ih seen

theorem dedupStep_snd_mono (seen : List EntryKey) (l : List JVal) (k : EntryKey)
    (hk : k ∈ seen) : k ∈ (dedupStep seen l).2 := by
  obtain ⟨ks, hks⟩ := dedupStep_snd_extends seen l
  rw [hks]
  exact List.mem_append_left _ hk

theorem dedupStep_keys_recorded (seen : List EntryKey) (l : List JVal) :
    ∀ e ∈ l, isObj e = true → entryKeyOf e ∈ (dedupStep seen l).2 := by
  induction l generalizing seen with
  | nil => intro e he _; simp at he
  | cons f rest ih =>
    intro x hx hox
    by_cases ho : isObj f = true
    · obtain ⟨fs, rfl⟩ := (isObj_iff f).1 ho
      by_cases hk : entryKey fs ∈ seen
      · rw [dedupStep_cons_obj_seen seen fs rest hk]
        rcases List.mem_cons.1 hx with rfl | hx
        · rw [entryKeyOf_jobj]
          exact dedupStep_snd_mono seen rest _ hk
        · exact ih seen x hx hox
      · rw [dedupStep_cons_obj_new seen fs rest hk]
        rcases List.mem_cons.1 hx with rfl | hx
        · rw [entryKeyOf_jobj]
          exact dedupStep_snd_mono _ rest _ (List.mem_append_right _ (by simp))
        · exact ih (seen ++ [entryKey fs]) x hx hox
    · rcases List.mem_cons.1 hx with rfl | hx
      · rw [hox] at ho
        exact absurd rfl ho
      · rw [dedupStep_cons_not_obj seen f rest (by simpa using ho)]
        exact ih seen x hx hox

theorem dedupStep_skip (seen : List EntryKey) (l : List JVal)
    (h : ∀ e ∈ l, isObj e = true → entryKeyOf e ∈ seen) :
    dedupStep seen l = ([], seen) := by
  induction l with
  | nil => simp [dedupStep]
  | cons f rest ih =>
    by_cases ho : isObj f = true
    · obtain ⟨fs, rfl⟩ := (isObj_iff f).1 ho
      have hk : entryKey fs ∈ seen := h _ (List.mem_cons_self _ rest) ho
      rw [dedupStep_cons_obj_seen seen fs rest hk]
      exact ih (fun e he hx => h e (List.mem_cons_of_mem _ he) hx)
    · rw [dedupStep_cons_not_obj seen f rest (by simpa using ho)]
      exact ih (fun e he hx => h e (List.mem_cons_of_mem _ he) hx)

theorem dedupStep_all_new (seen : List EntryKey) (l : List JVal)
    (hobj : ∀ e ∈ l, isObj e = true)
    (hdis : ∀ e ∈ l, entryKeyOf e ∉ seen)
    (hnd : (l.map entryKeyOf).Nodup) :
    dedupStep seen l = (l, seen ++ l.map entryKeyOf) := by
  induction l generalizing seen with
  | nil => simp [dedupStep]
  | cons f rest ih =>
    obtain ⟨fs, rfl⟩ := (isObj_iff f).1 (hobj f (List.mem_cons_self _ rest))
    have hk : entryKey fs ∉ seen := hdis _ (List.mem_cons_self _ rest)
    rw [dedupStep_cons_obj_new seen fs rest hk]
    rw [List.map_cons, List.nodup_cons] at hnd
    have hrec := ih (seen ++ [entryKey fs])
      (fun e he => hobj e (List.mem_cons_of_mem _ he))
      (fun e he => by
        intro hmem
        rcases List.mem_append.1 hmem with hmem | hmem
        · exact hdis e (List.mem_cons_of_mem _ he) hmem
        · rw [List.mem_singleton] at hmem
          refine hnd.1 ?_
          rw [entryKeyOf_jobj, ← hmem]
          exact List.mem_map_of_mem entryKeyOf he)
      hnd.2
    rw [hrec]
    simp [List.append_assoc, entryKeyOf_jobj]

/-! ## Merge fold lemmas -/

theorem merge_eq_render (files : List (Except Unit JVal)) (ie : Bool) (st : MergeState)
    (h : files.foldlM (processFile ie) ([] : MergeState) = .ok st) :
    merge_taxonomies files ie = renderMerged st := by
  rw [merge_taxonomies, h]
  rfl

theorem is_taxonomy_file_mkTax (n : String) (items : List JVal) :
    is_taxonomy_file (mkTax n items) = true := rfl

theorem taxNameOf_mkTax (n : String) (items : List JVal) : taxNameOf (mkTax n items) = n := rfl

theorem taxItemsOf_mkTax (n : String) (items : List JVal) :
    taxItemsOf (mkTax n items) = items := rfl

theorem processFile_valid (ie : Bool) (st : MergeState) (d : JVal)
    (h : is_taxonomy_file d = true) :
    processFile ie st (.ok d) =
      .ok (processEntries (taxNameOf d) (taxItemsOf d) (ensureName st (taxNameOf d))) := by
  simp [processFile, h]

theorem processFile_bad (ie : Bool) (st : MergeState) (f : Except Unit JVal)
    (h : goodFile f = false) :
    processFile ie st f = if ie then .ok st else .error (badErr f) := by
  cases f with
  | error e => rfl
  | ok d =>
    have hd : is_taxonomy_file d = false := by simpa [goodFile] using h
    simp [processFile, hd, badErr]

theorem ensureName_mem (st : MergeState) (n : String) (h : ∃ x ∈ st, x.name = n) :
    ensureName st n = st := by
  obtain ⟨x, hx, hxn⟩ := h
  rw [ensureName, if_pos]
  exact List.any_eq_true.2 ⟨x, hx, beq_iff_eq.2 hxn⟩

theorem ensureName_not_mem (st : MergeState) (n : String) (h : ∀ x ∈ st, x.name ≠ n) :
    ensureName st n = st ++ [⟨n, [], []⟩] := by
  rw [ensureName, if_neg]
  intro hc
  obtain ⟨x, hx, hxn⟩ := List.any_eq_true.1 hc
  exact h x hx (beq_iff_eq.1 hxn)

theorem fold_one_valid (ie : Bool) (F : JVal) (h : is_taxonomy_file F = true)
    (rest : List (Except Unit JVal)) :
    ((Except.ok F) :: rest).foldlM (processFile ie) ([] : MergeState) =
      rest.foldlM (processFile ie)
        [⟨taxNameOf F, (dedupStep [] (taxItemsOf F)).1, (dedupStep [] (taxItemsOf F)).2⟩] := by
  simp only [List.foldlM_cons]
  rw [processFile_valid ie [] F h, ensureName_not_mem [] _ (by simp)]
  have hchar := processEntries_eq (taxNameOf F) (taxItemsOf F) [] []
    ⟨taxNameOf F, [], []⟩ rfl (by simp) (by simp)
  simp only [List.nil_append] at hchar
  simp only [List.nil_append]
  rw [hchar]
  rfl

theorem fold_two_same (ie : Bool) (F : JVal) (h : is_taxonomy_file F = true) :
    [Except.ok F, Except.ok F].foldlM (processFile ie) ([] : MergeState) =
      [Except.ok F].foldlM (processFile ie) ([] : MergeState) := by
  rw [fold_one_valid ie F h [Except.ok F], fold_one_valid ie F h []]
  simp only [List.foldlM_cons, List.foldlM_nil]
  rw [processFile_valid ie _ F h,
    ensureName_mem _ _ ⟨_, List.mem_singleton.2 rfl, rfl⟩]
  have hchar := processEntries_eq (taxNameOf F) (taxItemsOf F) [] []
    ⟨taxNameOf F, (dedupStep [] (taxItemsOf F)).1, (dedupStep [] (taxItemsOf F)).2⟩
    rfl (by simp) (by simp)
  simp only [List.nil_append] at hchar
  rw [hchar, dedupStep_skip _ _ (fun e he hx => dedupStep_keys_recorded [] _ e he hx)]
  simp only [List.append_nil]
  rfl

/-- C3: `merge_taxonomies` is idempotent with respect to duplicated input:
for every valid taxonomy file payload `F`, merging `[F, F]` produces the
same result (hence the same classification set) as merging `[F]` alone. -/
theorem merge_idempotent (F : JVal) (ie : Bool) (h : is_taxonomy_file F = true) :
    merge_taxonomies [.ok F, .ok F] ie = merge_taxonomies [.ok F] ie := by
  rw [merge_taxonomies, merge_taxonomies, fold_two_same ie F h]

/-- Witness for `merge_idempotent`: a two-entry file (with an internal
duplicate) merged with itself. -/
theorem merge_idempotent_witness :
    is_taxonomy_file (mkTax "T"
      [.jobj [("issue", .jstr "a"), ("node_id", .jstr "n2"),
              ("level1", .jstr "L"), ("level2", .jstr "M")],
       .jobj [("issue", .jstr "a"), ("node_id", .jstr "n2"),
              ("level1", .jstr "L"), ("level2", .jstr "M")],
       .jobj [("issue", .jstr "B"), ("node_id", .jstr "n1"),
              ("level1", .jstr "L"), ("level2", .jstr "M")]]) = true ∧
    merge_taxonomies [.ok (mkTax "T"
      [.jobj [("issue", .jstr "a"), ("node_id", .jstr "n2"),
              ("level1", .jstr "L"), ("level2", .jstr "M")],
       .jobj [("issue", .jstr "a"), ("node_id", .jstr "n2"),
              ("level1", .jstr "L"), ("level2", .jstr "M")],
       .jobj [("issue", .jstr "B"), ("node_id", .jstr "n1"),
              ("level1", .jstr "L"), ("level2", .jstr "M")]]),
      .ok (mkTax "T"
      [.jobj [("issue", .jstr "a"), ("node_id", .jstr "n2"),
              ("level1", .jstr "L"), ("level2", .jstr "M")],
       .jobj [("issue", .jstr "a"), ("node_id", .jstr "n2"),
              ("level1", .jstr "L"), ("level2", .jstr "M")],
       .jobj [("issue", .jstr "B"), ("node_id", .jstr "n1"),
              ("level1", .jstr "L"), ("level2", .jstr "M")]])] false =
    merge_taxonomies [.ok (mkTax "T"
      [.jobj [("issue", .jstr "a"), ("node_id", .jstr "n2"),
              ("level1", .jstr "L"), ("level2", .jstr "M")],
       .jobj [("issue", .jstr "a"), ("node_id", .jstr "n2"),
              ("level1", .jstr "L"), ("level2", .jstr "M")],
       .jobj [("issue", .jstr "B"), ("node_id", .jstr "n1"),
              ("level1", .jstr "L"), ("level2", .jstr "M")]])] false :=
  ⟨rfl, merge_idempotent _ false rfl⟩

/-! ## Entry filtering and de-duplication (C10) -/

theorem dedupStep_fst_sublist (seen : List EntryKey) (l : List JVal) :
    List.Sublist (dedupStep seen l).1 (l.filter isObj) := by
  induction l generalizing seen with
  | nil => simp [dedupStep]
  | cons f rest ih =>
    by_cases ho : isObj f = true
    · obtain ⟨fs, rfl⟩ := (isObj_iff f).1 ho
      rw [List.filter_cons_of_pos ho]
      by_cases hk : entryKey fs ∈ seen
      · rw [dedupStep_cons_obj_seen seen fs rest hk]
        exact (ih seen).cons _
      · rw [dedupStep_cons_obj_new seen fs rest hk]
        exact (ih _).cons₂ _
    · rw [dedupStep_cons_not_obj seen f rest (by simpa using ho),
        List.filter_cons_of_neg (by simpa using ho)]
      exact ih seen

theorem dedupStep_covers (seen : List EntryKey) (l : List JVal) :
    ∀ e ∈ l, isObj e = true →
      entryKeyOf e ∈ seen ∨ entryKeyOf e ∈ ((dedupStep seen l).1).map entryKeyOf := by
  induction l generalizing seen with
  | nil => intro e he _; simp at he
  | cons f rest ih =>
    intro x hx hox
    by_cases ho : isObj f = true
    · obtain ⟨fs, rfl⟩ := (isObj_iff f).1 ho
      by_cases hk : entryKey fs ∈ seen
      · rw [dedupStep_cons_obj_seen seen fs rest hk]
        rcases List.mem_cons.1 hx with rfl | hx
        · left
          rwa [entryKeyOf_jobj]
        · exact ih seen x hx hox
      · rw [dedupStep_cons_obj_new seen fs rest hk]
        rcases List.mem_cons.1 hx with rfl | hx
        · right
          rw [List.map_cons]
          exact List.mem_cons_self _ _
        · rcases ih (seen ++ [entryKey fs]) x hx hox with hsn | hout
          · rcases List.mem_append.1 hsn with hs | hs
            · exact Or.inl hs
            · right
              rw [List.mem_singleton] at hs
              rw [List.map_cons, hs, entryKeyOf_jobj]
              exact List.mem_cons_self _ _
          · right
            rw [List.map_cons]
            exact List.mem_cons_of_mem _ hout
    · rcases List.mem_cons.1 hx with rfl | hx
      · rw [hox] at ho
        exact absurd rfl ho
      · rw [dedupStep_cons_not_obj seen f rest (by simpa using ho)]
        exact ih seen x hx hox

theorem dedupStep_fst_keys (seen : List EntryKey) (l : List JVal) :
    (((dedupStep seen l).1).map entryKeyOf).Nodup ∧
    ∀ k ∈ ((dedupStep seen l).1).map entryKeyOf, k ∉ seen := by
  induction l generalizing seen with
  | nil => simp [dedupStep]
  | cons f rest ih =>
    by_cases ho : isObj f = true
    · obtain ⟨fs, rfl⟩ := (isObj_iff f).1 ho
      by_cases hk : entryKey fs ∈ seen
      · rw [dedupStep_cons_obj_seen seen fs rest hk]
        exact ih seen
      · rw [dedupStep_cons_obj_new seen fs rest hk]
        obtain ⟨hnodup, hnot⟩ := ih (seen ++ [entryKey fs])
        constructor
        · rw [List.map_cons, List.nodup_cons]
          refine ⟨?_, hnodup⟩
          intro hmem
          refine hnot _ hmem ?_
          rw [entryKeyOf_jobj]
          exact List.mem_append_right _ (by simp)
        · intro k hkmem
          rw [List.map_cons] at hkmem
          rcases List.mem_cons.1 hkmem with rfl | hkmem
          · rwa [entryKeyOf_jobj]
          · intro hks
            exact hnot k hkmem (List.mem_append_left _ hks)
    · rw [dedupStep_cons_not_obj seen f rest (by simpa using ho)]
      exact ih seen

theorem merge_one_mkTax (n : String) (items : List JVal) (ie : Bool) :
    merge_taxonomies [.ok (mkTax n items)] ie =
      .ok (singleShape n (sortEntries (dedupItems items))) := by
  have hf := fold_one_valid ie (mkTax n items) (is_taxonomy_file_mkTax n items) []
  rw [taxNameOf_mkTax, taxItemsOf_mkTax] at hf
  rw [merge_eq_render _ _ _ (hf.trans rfl)]
  rfl

/-- C10: for every valid input file, non-object elements of its
`classifications` list are silently omitted from the merged result — even
with `ignoreErrors` unset the merge succeeds — while object elements
participate in de-duplication (keys built with missing fields as the empty
string): the kept entries are a sublist of the object entries (each kept
verbatim), every object entry's key is represented among the kept entries,
and the kept entries' keys are pairwise distinct. -/
theorem merge_entry_filtering_spec (n : String) (items : List JVal) :
    merge_taxonomies [.ok (mkTax n items)] false =
      .ok (singleShape n (sortEntries (dedupItems items))) ∧
    List.Sublist (dedupItems items) (items.filter isObj) ∧
    (∀ e ∈ items, isObj e = true →
      entryKeyOf e ∈ (dedupItems items).map entryKeyOf) ∧
    ((dedupItems items).map entryKeyOf).Nodup :=
  ⟨merge_one_mkTax n items false, dedupStep_fst_sublist [] items,
   fun e he hox => (dedupStep_covers [] items e he hox).resolve_left (by simp),
   (dedupStep_fst_keys [] items).1⟩

/-! ## Merge error handling (C7) -/

theorem goodFile_decomp (f : Except Unit JVal) (h : goodFile f = true) :
    ∃ d, f = .ok d ∧ is_taxonomy_file d = true := by
  cases f with
  | ok d => exact ⟨d, rfl, by simpa [goodFile] using h⟩
  | error e => simp [goodFile] at h

theorem fold_skip_bad_ie (pre post : List (Except Unit JVal)) (bad : Except Unit JVal)
    (hbad : goodFile bad = false) (st : MergeState) :
    (pre ++ bad :: post).foldlM (processFile true) st =
      (pre ++ post).foldlM (processFile true) st := by
  rw [List.foldlM_append, List.foldlM_append]
  congr 1
  funext b
  rw [List.foldlM_cons, processFile_bad true b bad hbad]
  rfl

theorem fold_raises_first_bad (pre post : List (Except Unit JVal)) (bad : Except Unit JVal)
    (hbad : goodFile bad = false) (hpre : ∀ f ∈ pre, goodFile f = true) (st : MergeState) :
    (pre ++ bad :: post).foldlM (processFile false) st = .error (badErr bad) := by
  induction pre generalizing st with
  | nil =>
    rw [List.nil_append, List.foldlM_cons, processFile_bad false st bad hbad]
    rfl
  | cons p ps ih =>
    rw [List.cons_append, List.foldlM_cons]
    obtain ⟨d, rfl, hd⟩ := goodFile_decomp p (hpre p (List.mem_cons_self p ps))
    rw [processFile_valid false st d hd]
    exact ih (fun f hf => hpre f (List.mem_cons_of_mem _ hf)) _

theorem fold_ok_of (ie : Bool) (files : List (Except Unit JVal)) (st : MergeState)
    (h : ie = true ∨ ∀ f ∈ files, goodFile f = true) :
    ∃ st', files.foldlM (processFile ie) st = .ok st' := by
  induction files generalizing st with
  | nil => exact ⟨st, rfl⟩
  | cons f rest ih =>
    have hstep : ∃ st₂, processFile ie st f = .ok st₂ := by
      by_cases hg : goodFile f = true
      · obtain ⟨d, rfl, hd⟩ := goodFile_decomp f hg
        exact ⟨_, processFile_valid ie st d hd⟩
      · have hb : goodFile f = false := by simpa using hg
        rcases h with rfl | hall
        · exact ⟨st, by rw [processFile_bad true st f hb]; rfl⟩
        · exact absurd (hall f (List.mem_cons_self f rest)) hg
    obtain ⟨st₂, hst₂⟩ := hstep
    obtain ⟨st', hst'⟩ := ih st₂
      (h.imp id (fun hall g hg => hall g (List.mem_cons_of_mem _ hg)))
    exact ⟨st', by rw [List.foldlM_cons, hst₂]; exact hst'⟩

theorem processEntry_length (n : String) (st : MergeState) (e : JVal) :
    (processEntry n st e).length = st.length := by
  by_cases ho : isObj e = true
  · obtain ⟨fs, rfl⟩ := (isObj_iff e).1 ho
    rw [processEntry]
    split
    · rfl
    · simp [addEntry]
  · rw [processEntry_not_obj n st e (by simpa using ho)]

theorem processEntries_length (n : String) (l : List JVal) (st : MergeState) :
    (processEntries n l st).length = st.length := by
  induction l generalizing st with
  | nil => rfl
  | cons e rest ih =>
    simp only [processEntries, List.foldl_cons] at ih ⊢
    rw [ih (processEntry n st e), processEntry_length]

theorem ensureName_ne_nil (st : MergeState) (n : String) : ensureName st n ≠ [] := by
  by_cases hc : st.any (fun a => a.name == n) = true
  · rw [ensureName, if_pos hc]
    intro h
    rw [h] at hc
    simp at hc
  · rw [ensureName, if_neg hc]
    simp

theorem fold_empty_iff (ie : Bool) (files : List (Except Unit JVal)) :
    ∀ st st', files.foldlM (processFile ie) st = .ok st' →
      (st' = [] ↔ (st = [] ∧ ∀ f ∈ files, goodFile f = false)) := by
  induction files with
  | nil =>
    intro st st' h
    rw [List.foldlM_nil] at h
    cases h
    simp
  | cons f rest ih =>
    intro st st' h
    rw [List.foldlM_cons] at h
    by_cases hg : goodFile f = true
    · obtain ⟨d, rfl, hd⟩ := goodFile_decomp f hg
      rw [processFile_valid ie st d hd] at h
      have h2 := ih _ _ h
      have hne : processEntries (taxNameOf d) (taxItemsOf d)
          (ensureName st (taxNameOf d)) ≠ [] := by
        intro hemp
        have hl := congrArg List.length hemp
        rw [processEntries_length] at hl
        simp only [List.length_nil] at hl
        exact ensureName_ne_nil st (taxNameOf d) (List.length_eq_zero.1 hl)
      constructor
      · intro hst'
        exact absurd (h2.1 hst').1 hne
      · rintro ⟨_, hall⟩
        have := hall (.ok d) (List.mem_cons_self _ rest)
        rw [goodFile, hd] at this
        cases this
    · have hb : goodFile f = false := by simpa using hg
      rw [processFile_bad ie st f hb] at h
      cases ie with
      | false => exact Except.noConfusion h
      | true =>
        have h2 := ih _ _ h
        rw [h2]
        constructor
        · rintro ⟨h1, h3⟩
          refine ⟨h1, ?_⟩
          intro g hg2
          rcases List.mem_cons.1 hg2 with rfl | hg2
          · exact hb
          · exact h3 g hg2
        · rintro ⟨h1, h3⟩
          exact ⟨h1, fun g hg2 => h3 g (List.mem_cons_of_mem _ hg2)⟩

theorem renderMerged_noValid_iff (st : MergeState) :
    renderMerged st = .error .noValidFiles ↔ st = [] := by
  rcases st with _ | ⟨a, _ | ⟨b, t⟩⟩ <;> simp [renderMerged]

/-- C7 counterexample: with `ignoreErrors` unset and a single unreadable
input file, no input validates successfully, yet the merge raises the
file's own load error, not `RuntimeError`. -/
theorem merge_runtime_error_counterexample :
    goodFile (.error ()) = false ∧
    merge_taxonomies [.error ()] false = .error .loadFailed ∧
    MergeErr.loadFailed ≠ MergeErr.noValidFiles :=
  ⟨rfl, rfl, by decide⟩

/-- C7 (amended): a file that fails loading or the shape check is skipped
exactly when `ignoreErrors` is set and otherwise raises its own error (the
first such file's load/shape error); and in every run that raises no such
per-file error — `ignoreErrors` set, or every file valid — the merge raises
`RuntimeError` exactly when no input file validated successfully. -/
theorem merge_error_spec :
    (∀ pre post (bad : Except Unit JVal), goodFile bad = false →
      merge_taxonomies (pre ++ bad :: post) true = merge_taxonomies (pre ++ post) true) ∧
    (∀ pre post (bad : Except Unit JVal), goodFile bad = false →
      (∀ f ∈ pre, goodFile f = true) →
      merge_taxonomies (pre ++ bad :: post) false = .error (badErr bad)) ∧
    (∀ (files : List (Except Unit JVal)) (ie : Bool),
      (ie = true ∨ ∀ f ∈ files, goodFile f = true) →
      (merge_taxonomies files ie = .error .noValidFiles ↔
        ∀ f ∈ files, goodFile f = false)) := by
  refine ⟨?_, ?_, ?_⟩
  · intro pre post bad hbad
    rw [merge_taxonomies, merge_taxonomies, fold_skip_bad_ie pre post bad hbad]
  · intro pre post bad hbad hpre
    rw [merge_taxonomies, fold_raises_first_bad pre post bad hbad hpre]
    rfl
  · intro files ie h
    obtain ⟨st', hst'⟩ := fold_ok_of ie files [] h
    rw [merge_eq_render files ie st' hst', renderMerged_noValid_iff]
    have := fold_empty_iff ie files [] st' hst'
    simpa using this

/-- Witness for `merge_error_spec`: an unreadable file is skipped under
`ignoreErrors`, and an empty input list raises `RuntimeError`. -/
theorem merge_error_spec_witness :
    (goodFile (Except.error () : Except Unit JVal) = false ∧
      merge_taxonomies [Except.error (), .ok (mkTax "T" [])] true =
        merge_taxonomies [.ok (mkTax "T" [])] true) ∧
    (merge_taxonomies ([] : List (Except Unit JVal)) false = .error .noValidFiles ↔
      ∀ f ∈ ([] : List (Except Unit JVal)), goodFile f = false) :=
  ⟨⟨rfl, merge_error_spec.1 [] [.ok (mkTax "T" [])] (.error ()) rfl⟩,
   merge_error_spec.2.2 [] false (Or.inr (by simp))⟩

/-! ## Merge result shape (C5) -/

theorem processEntry_names (n : String) (st : MergeState) (e : JVal) :
    (processEntry n st e).map (fun a => a.name) = st.map (fun a => a.name) := by
  by_cases ho : isObj e = true
  · obtain ⟨fs, rfl⟩ := (isObj_iff e).1 ho
    rw [processEntry]
    split
    · rfl
    · rw [addEntry, List.map_map]
      apply List.map_congr_left
      intro x _
      simp only [Function.comp]
      split <;> rfl
  · rw [processEntry_not_obj n st e (by simpa using ho)]

theorem processEntries_names (n : String) (l : List JVal) (st : MergeState) :
    (processEntries n l st).map (fun a => a.name) = st.map (fun a => a.name) := by
  induction l generalizing st with
  | nil => rfl
  | cons e rest ih =>
    simp only [processEntries, List.foldl_cons] at ih ⊢
    rw [ih (processEntry n st e), processEntry_names]

theorem addName_bad (acc : List String) (f : Except Unit JVal) (h : goodFile f = false) :
    addName acc f = acc := by
  cases f with
  | error e => rfl
  | ok d =>
    have hd : is_taxonomy_file d = false := by simpa [goodFile] using h
    simp [addName, hd]

theorem ensureName_names (st : MergeState) (n : String) :
    (ensureName st n).map (fun a => a.name) =
      (if (st.map (fun a => a.name)).any (fun x => x == n) then st.map (fun a => a.name)
       else st.map (fun a => a.name) ++ [n]) := by
  have hany : st.any (fun a => a.name == n) = (st.map (fun a => a.name)).any (fun x => x == n) := by
    induction st with
    | nil => rfl
    | cons p ps ih => simp [List.any_cons, ih]
  by_cases hc : st.any (fun a => a.name == n) = true
  · rw [ensureName, if_pos hc, if_pos (hany ▸ hc)]
  · rw [ensureName, if_neg hc, if_neg (by rw [← hany]; simpa using hc)]
    simp

theorem fold_names (ie : Bool) (files : List (Except Unit JVal)) :
    ∀ st st', files.foldlM (processFile ie) st = .ok st' →
      st'.map (fun a => a.name) = files.foldl addName (st.map (fun a => a.name)) := by
  induction files with
  | nil =>
    intro st st' h
    rw [List.foldlM_nil] at h
    cases h
    rfl
  | cons f rest ih =>
    intro st st' h
    rw [List.foldlM_cons] at h
    rw [List.foldl_cons]
    by_cases hg : goodFile f = true
    · obtain ⟨d, rfl, hd⟩ := goodFile_decomp f hg
      rw [processFile_valid ie st d hd] at h
      rw [ih _ _ h, processEntries_names, ensureName_names]
      have haddName : addName (st.map (fun a => a.name)) (.ok d) =
          (if (st.map (fun a => a.name)).any (fun x => x == taxNameOf d)
           then st.map (fun a => a.name)
           else st.map (fun a => a.name) ++ [taxNameOf d]) := by
        simp [addName, hd]
      rw [haddName]
    · have hb : goodFile f = false := by simpa using hg
      rw [processFile_bad ie st f hb] at h
      rw [addName_bad _ f hb]
      cases ie with
      | false => exact Except.noConfusion h
      | true => exact ih _ _ h

theorem fold_distinctNames (ie : Bool) (files : List (Except Unit JVal)) (st' : MergeState)
    (h : files.foldlM (processFile ie) ([] : MergeState) = .ok st') :
    st'.map (fun a => a.name) = distinctNames files := by
  have := fold_names ie files [] st' h
  simpa [distinctNames] using this

theorem merge_ok_fold (files : List (Except Unit JVal)) (ie : Bool) (r : JVal)
    (h : merge_taxonomies files ie = .ok r) :
    ∃ st, files.foldlM (processFile ie) ([] : MergeState) = .ok st ∧
      renderMerged st = .ok r := by
  rw [merge_taxonomies] at h
  cases hfold : files.foldlM (processFile ie) ([] : MergeState) with
  | error e =>
    rw [hfold] at h
    exact Except.noConfusion h
  | ok st =>
    rw [hfold] at h
    exact ⟨st, rfl, h⟩

theorem taxNameOf_singleShape (n : String) (items : List JVal) :
    taxNameOf (singleShape n items) = n := rfl

/-- C5: when a merge succeeds, the result has the single-taxonomy shape
(with that taxonomy's name) when exactly one distinct taxonomy name occurs
across the valid inputs, and the aggregate `{taxonomies: [...]}` shape with
one element per distinct name sorted by name when more than one occurs; in
both shapes each entry list is sorted by `(node_id, issue lowercased)`; and
merging two same-named files with disjoint all-object entries yields the
union of their entries. -/
theorem merge_shape_spec :
    (∀ (files : List (Except Unit JVal)) (ie : Bool) (r : JVal),
      merge_taxonomies files ie = .ok r →
      ((distinctNames files).length = 1 →
        ∃ n items, distinctNames files = [n] ∧ r = singleShape n items ∧
          items.Pairwise entryLE) ∧
      (2 ≤ (distinctNames files).length →
        ∃ ts, r = .jobj [("taxonomies", .jarr ts)] ∧
          ts.map taxNameOf = List.insertionSort strLE (distinctNames files) ∧
          (ts.map taxNameOf).Pairwise strLE ∧
          (∀ t ∈ ts, ∃ n items, t = singleShape n items ∧ items.Pairwise entryLE))) ∧
    (∀ (n : String) (items1 items2 : List JVal) (ie : Bool),
      (∀ e ∈ items1 ++ items2, isObj e = true) →
      (((items1 ++ items2).map entryKeyOf).Nodup) →
      ∃ items, merge_taxonomies [.ok (mkTax n items1), .ok (mkTax n items2)] ie =
          .ok (singleShape n items) ∧ items.Perm (items1 ++ items2)) := by
  constructor
  · intro files ie r hr
    obtain ⟨st, hfold, hrender⟩ := merge_ok_fold files ie r hr
    have hnames := fold_distinctNames ie files st hfold
    constructor
    · intro hlen1
      rw [← hnames] at hlen1
      rcases st with _ | ⟨a, _ | ⟨b, t⟩⟩
      · simp at hlen1
      · refine ⟨a.name, sortEntries a.items, ?_, ?_, ?_⟩
        · rw [← hnames]
          rfl
        · rw [renderMerged] at hrender
          exact (Except.ok.inj hrender).symm
        · exact List.sorted_insertionSort entryLE a.items
      · simp at hlen1
    · intro hlen2
      rw [← hnames] at hlen2
      rcases st with _ | ⟨a, _ | ⟨b, t⟩⟩
      · simp at hlen2
      · simp at hlen2
      · have hrender2 : Except.ok (JVal.jobj [("taxonomies", JVal.jarr
            ((List.insertionSort strLE ((a :: b :: t).map (fun a => a.name))).map
              (fun nm => singleShape nm (sortEntries (itemsOf (a :: b :: t) nm)))))]) =
            Except.ok r := hrender
        refine ⟨_, (Except.ok.inj hrender2).symm, ?_, ?_, ?_⟩
        · rw [List.map_map, ← hnames]
          exact (List.map_congr_left (fun nm _ => rfl)).trans (List.map_id _)
        · rw [List.map_map]
          have heq : (List.insertionSort strLE
                ((a :: b :: t).map (fun a => a.name))).map
              (taxNameOf ∘ fun nm => singleShape nm (sortEntries (itemsOf (a :: b :: t) nm))) =
              List.insertionSort strLE ((a :: b :: t).map (fun a => a.name)) :=
            (List.map_congr_left (fun nm _ => rfl)).trans (List.map_id _)
          rw [heq]
          exact List.sorted_insertionSort strLE _
        · intro t2 ht2
          obtain ⟨nm, _, rfl⟩ := List.mem_map.1 ht2
          exact ⟨nm, _, rfl, List.sorted_insertionSort entryLE _⟩
  · intro n items1 items2 ie hobj hnd
    rw [List.map_append, List.nodup_append] at hnd
    obtain ⟨hnd1, hnd2, hdisj⟩ := hnd
    have hobj1 : ∀ e ∈ items1, isObj e = true :=
      fun e he => hobj e (List.mem_append_left _ he)
    have hobj2 : ∀ e ∈ items2, isObj e = true :=
      fun e he => hobj e (List.mem_append_right _ he)
    have hded1 : dedupStep [] items1 = (items1, [] ++ items1.map entryKeyOf) :=
      dedupStep_all_new [] items1 hobj1 (fun e _ => by simp) hnd1
    have hded2 : dedupStep (items1.map entryKeyOf) items2 =
        (items2, items1.map entryKeyOf ++ items2.map entryKeyOf) :=
      dedupStep_all_new _ items2 hobj2
        (fun e he hmem => hdisj hmem (List.mem_map_of_mem entryKeyOf he)) hnd2
    have hf1 := fold_one_valid ie (mkTax n items1) (is_taxonomy_file_mkTax n items1)
      [.ok (mkTax n items2)]
    rw [taxNameOf_mkTax, taxItemsOf_mkTax, hded1] at hf1
    simp only [List.nil_append] at hf1
    have hf2 : [Except.ok (mkTax n items2)].foldlM (processFile ie)
        [⟨n, items1, items1.map entryKeyOf⟩] =
        .ok [⟨n, items1 ++ items2, items1.map entryKeyOf ++ items2.map entryKeyOf⟩] := by
      rw [List.foldlM_cons,
        processFile_valid ie _ _ (is_taxonomy_file_mkTax n items2),
        taxNameOf_mkTax, taxItemsOf_mkTax,
        ensureName_mem _ _ ⟨_, List.mem_singleton.2 rfl, rfl⟩]
      have hchar := processEntries_eq n items2 [] []
        ⟨n, items1, items1.map entryKeyOf⟩ rfl (by simp) (by simp)
      simp only [List.nil_append] at hchar
      rw [hchar, hded2]
      rfl
    refine ⟨sortEntries (items1 ++ items2), ?_, List.perm_insertionSort entryLE _⟩
    rw [merge_eq_render _ _ _ (hf1.trans hf2)]
    rfl

/-- Witness for `merge_shape_spec`: two same-named single-entry files with
distinct keys merge to their union. -/
theorem merge_shape_spec_witness :
    ((∀ e ∈ ([.jobj [("issue", .jstr "a"), ("node_id", .jstr "n1"),
                     ("level1", .jstr "L"), ("level2", .jstr "M")]] ++
             [.jobj [("issue", .jstr "b"), ("node_id", .jstr "n2"),
                     ("level1", .jstr "L"), ("level2", .jstr "M")]] : List JVal),
        isObj e = true) ∧
      ((((
         [.jobj [("issue", .jstr "a"), ("node_id", .jstr "n1"),
                 ("level1", .jstr "L"), ("level2", .jstr "M")]] ++
         [.jobj [("issue", .jstr "b"), ("node_id", .jstr "n2"),
                 ("level1", .jstr "L"), ("level2", .jstr "M")]] : List JVal)).map
        entryKeyOf).Nodup)) ∧
    (∃ items,
      merge_taxonomies
        [.ok (mkTax "T" [.jobj [("issue", .jstr "a"), ("node_id", .jstr "n1"),
                                ("level1", .jstr "L"), ("level2", .jstr "M")]]),
         .ok (mkTax "T" [.jobj [("issue", .jstr "b"), ("node_id", .jstr "n2"),
                                ("level1", .jstr "L"), ("level2", .jstr "M")]])] false =
        .ok (singleShape "T" items) ∧
      items.Perm ([.jobj [("issue", .jstr "a"), ("node_id", .jstr "n1"),
                          ("level1", .jstr "L"), ("level2", .jstr "M")]] ++
                  [.jobj [("issue", .jstr "b"), ("node_id", .jstr "n2"),
                          ("level1", .jstr "L"), ("level2", .jstr "M")]])) :=
  ⟨⟨by decide, by decide⟩,
   merge_shape_spec.2 "T"
     [.jobj [("issue", .jstr "a"), ("node_id", .jstr "n1"),
             ("level1", .jstr "L"), ("level2", .jstr "M")]]
     [.jobj [("issue", .jstr "b"), ("node_id", .jstr "n2"),
             ("level1", .jstr "L"), ("level2", .jstr "M")]] false
     (by decide) (by decide)⟩

end FMA
